import Mathlib

/-!
Verification of `src/actions/common/notify/teams/fetch-jira-summaries.js`.

The script is embedded shallowly: strings are `List Char`, the per-issue
HTTP interaction is a pure function of an abstract `FetchOutcome`, and the
standard-library facilities the script uses (`String.prototype.replace`,
`RegExp.prototype.matchAll` for its two concrete regexes, `new URL`,
`decodeURIComponent`, `Buffer.toString("base64")`) are modelled from their
ECMAScript / WHATWG definitions restricted to the fragment the script
exercises.  Every definition mirrors the corresponding source construct;
doc comments reference the source line numbers.
-/

namespace FetchJira

/-! ## Character classes for the issue-id regex `/\*\*\[?([A-Z][A-Z0-9]+-\d+)/g` -/

/-- `[A-Z]` in a JS regex (ASCII uppercase). -/
def isUpperAZ (c : Char) : Bool := 'A' ≤ c && c ≤ 'Z'

/-- `\d` in a JS regex (ASCII digits). -/
def isDigit09 (c : Char) : Bool := '0' ≤ c && c ≤ '9'

/-- `[A-Z0-9]` in a JS regex. -/
def isUpAlnum (c : Char) : Bool := isUpperAZ c || isDigit09 c

/-- Anchored match of the capture group `[A-Z][A-Z0-9]+-\d+` at the head of
the input.  The greedy quantifiers are deterministic here because the
character classes exclude `-`, so no backtracking can succeed; the match is
an uppercase letter, a maximal nonempty `[A-Z0-9]` run, `-`, and a maximal
nonempty digit run.  Returns the captured identifier and the rest. -/
def matchIdBody : List Char → Option (List Char × List Char)
  | [] => none
  | c :: cs =>
    if isUpperAZ c then
      let run := cs.takeWhile isUpAlnum
      if run.isEmpty then none else
      match cs.dropWhile isUpAlnum with
      | [] => none
      | d :: r2 =>
        if d = '-' then
          let ds := r2.takeWhile isDigit09
          if ds.isEmpty then none else some (c :: run ++ '-' :: ds, r2.dropWhile isDigit09)
        else none
    else none

/-- Anchored match of the whole regex `\*\*\[?([A-Z][A-Z0-9]+-\d+)` at the
head of the input: two literal `*`, an optional `[`, then the id body.
(If a `[` is present but the body fails, the regex backtracks to the
bracket-less branch, which then fails on `[A-Z]`; so consuming the bracket
eagerly is faithful.)  Returns capture group 1 and the rest of the input
after the whole match, as `matchAll` resumes there. -/
def matchAfterStars : List Char → Option (List Char × List Char)
  | '*' :: '*' :: '[' :: rest => matchIdBody rest
  | '*' :: '*' :: rest => matchIdBody rest
  | _ => none

/-- One `matchAll` pass (source line 7, `changelog.matchAll(issueRegex)`,
mapped to capture group 1): scan left to right, at each position try the
anchored match; on success emit the capture and resume after the match,
otherwise advance one character.  Fuelled for termination; `scanIds`
instantiates the fuel with the input length. -/
def scanIdsAux : Nat → List Char → List (List Char)
  | 0, _ => []
  | _ + 1, [] => []
  | fuel + 1, c :: cs =>
    match matchAfterStars (c :: cs) with
    | some (x, rest) => x :: scanIdsAux fuel rest
    | none => scanIdsAux fuel cs

/-- All capture-group-1 matches of the issue regex, in order (source line 7). -/
def scanIds (l : List Char) : List (List Char) := scanIdsAux l.length l

/-- `Array.from(new Set(…))` (source lines 6–8): deduplication preserving
the order of first occurrence, with an accumulator of already-seen ids. -/
def dedupFirstAux : List (List Char) → List (List Char) → List (List Char)
  | _, [] => []
  | seen, x :: xs =>
    if x ∈ seen then dedupFirstAux seen xs else x :: dedupFirstAux (x :: seen) xs

/-- `ids` (source lines 6–8): deduplicated issue identifiers extracted from
the changelog. -/
def ids (changelog : List Char) : List (List Char) := dedupFirstAux [] (scanIds changelog)

/-! ## `buildLink` (source lines 14–15) -/

/-- The literal placeholder matched by `/\$\{id\}/g`. -/
def idPlaceholder : List Char := ['$', '\x7b', 'i', 'd', '\x7d']

/-- Unreserved characters of `encodeURIComponent` (ECMA-262):
`A–Z a–z 0–9 - _ . ! ~ * ' ( )`. -/
def isUriUnreserved (c : Char) : Bool :=
  ('A' ≤ c && c ≤ 'Z') || ('a' ≤ c && c ≤ 'z') || ('0' ≤ c && c ≤ '9') ||
  c.toNat = 45 || c.toNat = 95 || c.toNat = 46 || c.toNat = 33 ||
  c.toNat = 126 || c.toNat = 42 || c.toNat = 39 || c.toNat = 40 || c.toNat = 41

/-- Uppercase hexadecimal digit. -/
def hexDigitU (n : Nat) : Char := if n < 10 then Char.ofNat (48 + n) else Char.ofNat (55 + n)

/-- UTF-8 encoding of one scalar value (a Lean `Char` is always a valid
Unicode scalar, so `encodeURIComponent` cannot hit the lone-surrogate
error case here). -/
def utf8Bytes (c : Char) : List Nat :=
  let n := c.toNat
  if n < 0x80 then [n]
  else if n < 0x800 then [0xC0 + n / 64, 0x80 + n % 64]
  else if n < 0x10000 then [0xE0 + n / 4096, 0x80 + (n / 64) % 64, 0x80 + n % 64]
  else [0xF0 + n / 262144, 0x80 + (n / 4096) % 64, 0x80 + (n / 64) % 64, 0x80 + n % 64]

/-- `encodeURIComponent` (ECMA-262): unreserved characters kept, all others
percent-encoded as uppercase-hex UTF-8 bytes. -/
def encodeURIComponent (s : List Char) : List Char :=
  (s.map fun c =>
    if isUriUnreserved c then [c]
    else (utf8Bytes c).map (fun b => ['%', hexDigitU (b / 16), hexDigitU (b % 16)]) |>.flatten).flatten

/-- `template.replace(/\$\{id\}/g, rep)`: leftmost, non-overlapping
replacement of the literal `${id}` (the replacement string produced by
`encodeURIComponent` never contains `$`, so JS `$`-substitution patterns
cannot fire). -/
def replacePlaceholder (rep : List Char) : List Char → List Char
  | [] => []
  | '$' :: '\x7b' :: 'i' :: 'd' :: '\x7d' :: cs => rep ++ replacePlaceholder rep cs
  | c :: cs => c :: replacePlaceholder rep cs

/-- `buildLink` (source lines 14–15). -/
def buildLink (template id : List Char) : List Char :=
  replacePlaceholder (encodeURIComponent id) template

/-! ## `sanitizeMessage` (source lines 30–35)

The regex `/https?:\/\/[^:@]+:[^@]+@/g` is embedded as a deterministic
character automaton: the greedy classes `[^:@]+` and `[^@]+` stop exactly
at the first excluded character and backtracking into them can never make
the following literal match, so the automaton below accepts exactly the
anchored regex matches. -/

/-- States of the anchored matcher for `https?:\/\/[^:@]+:[^@]+@`:
`h0`–`h4` read `http`, `h4s` has read the optional `s`, `sl1`/`sl2` read
`//` (carrying whether the scheme was `https`), `r1z`/`r1` read the first
credential run `[^:@]+` (zero / at least one character so far), `r2z`/`r2`
likewise for `[^@]+`, `fl` is the dead state and `ac` an absorbing
already-accepted marker used only when composing walks. -/
inductive MState where
  | h0 | h1 | h2 | h3 | h4 | h4s
  | sl1 (https : Bool) | sl2 (https : Bool)
  | r1z (https : Bool) | r1 (https : Bool)
  | r2z (https : Bool) | r2 (https : Bool)
  | fl
  | ac (https : Bool)
deriving DecidableEq

/-- One automaton step; `Sum.inr b` signals acceptance (the final `@` was
just consumed, `b` records whether the scheme was `https`). -/
def stepA : MState → Char → MState ⊕ Bool
  | .h0, c => if c = 'h' then .inl .h1 else .inl .fl
  | .h1, c => if c = 't' then .inl .h2 else .inl .fl
  | .h2, c => if c = 't' then .inl .h3 else .inl .fl
  | .h3, c => if c = 'p' then .inl .h4 else .inl .fl
  | .h4, c => if c = 's' then .inl .h4s else if c = ':' then .inl (.sl1 false) else .inl .fl
  | .h4s, c => if c = ':' then .inl (.sl1 true) else .inl .fl
  | .sl1 b, c => if c = '/' then .inl (.sl2 b) else .inl .fl
  | .sl2 b, c => if c = '/' then .inl (.r1z b) else .inl .fl
  | .r1z b, c => if c = ':' || c = '@' then .inl .fl else .inl (.r1 b)
  | .r1 b, c => if c = ':' then .inl (.r2z b) else if c = '@' then .inl .fl else .inl (.r1 b)
  | .r2z b, c => if c = '@' then .inl .fl else .inl (.r2 b)
  | .r2 b, c => if c = '@' then .inr b else .inl (.r2 b)
  | .fl, _ => .inl .fl
  | .ac b, _ => .inl (.ac b)

/-- Run the anchored matcher from a state; `some (https, rest)` when the
regex matches a prefix of the input, where `rest` is what follows the
match. -/
def munch : MState → List Char → Option (Bool × List Char)
  | _, [] => none
  | σ, c :: cs =>
    match stepA σ c with
    | .inl τ => munch τ cs
    | .inr b => some (b, cs)

/-- State-only automaton step (acceptance becomes the absorbing `ac`). -/
def stepW (σ : MState) (c : Char) : MState :=
  match stepA σ c with
  | .inl τ => τ
  | .inr b => .ac b

/-- Walk the automaton across a list of characters. -/
def walk (σ : MState) (l : List Char) : MState := l.foldl stepW σ

/-- `"http://"` / `"https://"` — the value of `match.match(/^https?:\/\//)[0]`
in the replacement callback (source line 32). -/
def protoL (https : Bool) : List Char :=
  if https then ['h', 't', 't', 'p', 's', ':', '/', '/'] else ['h', 't', 't', 'p', ':', '/', '/']

/-- The masked credentials `***:***@` appended by the replacement callback
(source line 33). -/
def maskedL : List Char := ['*', '*', '*', ':', '*', '*', '*', '@']

/-- `message.replace(/https?:\/\/[^:@]+:[^@]+@/g, m => proto + "***:***@")`
(source lines 30–35): leftmost non-overlapping scan, replacing each match
by its protocol followed by the mask.  Fuelled for termination. -/
def sanAux : Nat → List Char → List Char
  | 0, _ => []
  | _ + 1, [] => []
  | fuel + 1, c :: cs =>
    match munch .h0 (c :: cs) with
    | some (b, rest) => protoL b ++ maskedL ++ sanAux fuel rest
    | none => c :: sanAux fuel cs

/-- `sanitizeMessage` (source lines 30–35). -/
def sanitizeMessage (s : List Char) : List Char := sanAux s.length s

/-- Structural correspondence between a string and its sanitised form:
equal characters outside matches, and each credential block
`proto ++ user ++ ":" ++ pass ++ "@"` related to `proto ++ "***:***@"`.
The matcher cannot distinguish the two sides (`Sim` preserves whether
`munch` accepts), which is what makes the sanitizer idempotent. -/
inductive Sim : List Char → List Char → Prop where
  | nil : Sim [] []
  | cons (c : Char) {s t : List Char} : Sim s t → Sim (c :: s) (c :: t)
  | block (b : Bool) (a bb : List Char) {s t : List Char} :
      a ≠ [] → (∀ c ∈ a, c ≠ ':' ∧ c ≠ '@') → bb ≠ [] → (∀ c ∈ bb, c ≠ '@') →
      Sim s t →
      Sim (protoL b ++ (a ++ ':' :: (bb ++ '@' :: s))) (protoL b ++ (maskedL ++ t))

/-! ## JavaScript values returned by `response.json()` (used by `toLine`) -/

/-- A JavaScript value as observed by `toLine` (source lines 59–73):
`jundef` stands for `undefined` (in particular the result of reading an
absent property).  Numbers are restricted to integers; the script only ever
renders them through string interpolation. -/
inductive JV where
  | jundef
  | jnull
  | jbool (b : Bool)
  | jnum (n : Int)
  | jstr (s : List Char)
  | jarr (xs : List JV)
  | jobj (fs : List (List Char × JV))

/-- JS truthiness, as used by `!x`, `x ? … : …`, `x && y` and
`filter(Boolean)` in the script. -/
def truthy : JV → Bool
  | .jundef => false
  | .jnull => false
  | .jbool b => b
  | .jnum n => n != 0
  | .jstr s => !s.isEmpty
  | .jarr _ => true
  | .jobj _ => true

/-- Property read `v.k`: `undefined` when the property is absent or the
value is not an object.  (The script only dereferences values it has
checked to be truthy, so the throwing cases of JS property access are
unreachable and need not be modelled.) -/
def getProp : JV → List Char → JV
  | .jobj fs, k => match fs.lookup k with | some v => v | none => .jundef
  | _, _ => .jundef

mutual

/-- JS string conversion as performed by template-literal interpolation. -/
def jsToString : JV → List Char
  | .jundef => ['u', 'n', 'd', 'e', 'f', 'i', 'n', 'e', 'd']
  | .jnull => ['n', 'u', 'l', 'l']
  | .jbool true => ['t', 'r', 'u', 'e']
  | .jbool false => ['f', 'a', 'l', 's', 'e']
  | .jnum n => (toString n).toList
  | .jstr s => s
  | .jarr xs => jsArrString xs
  | .jobj _ => "[object Object]".toList

/-- `Array.prototype.toString` = `join(",")`, where `null`/`undefined`
elements render empty. -/
def jsArrString : List JV → List Char
  | [] => []
  | [.jundef] => []
  | [.jnull] => []
  | [v] => jsToString v
  | .jundef :: vs => ',' :: jsArrString vs
  | .jnull :: vs => ',' :: jsArrString vs
  | v :: vs => jsToString v ++ ',' :: jsArrString vs

end

/-- Property-name constants used by `toLine`. -/
def fieldsK : List Char := "fields".toList

def summaryK : List Char := "summary".toList

def statusK : List Char := "status".toList

def issuetypeK : List Char := "issuetype".toList

def nameK : List Char := "name".toList

/-- `Array.prototype.join(sep)`. -/
def jsJoinSep (sep : List Char) : List (List Char) → List Char
  | [] => []
  | [p] => p
  | p :: ps => p ++ sep ++ jsJoinSep sep ps

/-- The label used in bullets (source lines 70 and 76):
`[id](buildLink(linkPattern, id))` when a link template is configured,
otherwise the bare id. -/
def bulletLabel (linkPattern id : List Char) : List Char :=
  if linkPattern.isEmpty then id
  else '[' :: id ++ ']' :: '(' :: buildLink linkPattern id ++ [')']

/-- `toLine` (source lines 59–73). -/
def toLine (linkPattern id : List Char) (data : JV) : Option (List Char) :=
  if !truthy data || !truthy (getProp data fieldsK)
      || !truthy (getProp (getProp data fieldsK) summaryK) then none
  else
    let fields := getProp data fieldsK
    let summary := getProp fields summaryK
    let status :=
      if truthy (getProp fields statusK) && truthy (getProp (getProp fields statusK) nameK)
      then getProp (getProp fields statusK) nameK else .jstr []
    let itype :=
      if truthy (getProp fields issuetypeK) && truthy (getProp (getProp fields issuetypeK) nameK)
      then getProp (getProp fields issuetypeK) nameK else .jstr []
    let extras := jsJoinSep " · ".toList (([status, itype].filter truthy).map jsToString)
    some ("* **".toList ++ bulletLabel linkPattern id ++ "**: ".toList ++ jsToString summary ++
      (if extras.isEmpty then [] else ' ' :: '(' :: extras ++ [')']))

/-- `toErrorLine` (source lines 75–78). -/
def toErrorLine (linkPattern id errorInfo : List Char) : List Char :=
  "* **".toList ++ bulletLabel linkPattern id ++ "**: Failed to fetch (".toList ++
    errorInfo ++ [')']

/-! ## `new URL`, `decodeURIComponent`, `Buffer.…("base64")` — the platform
facilities used by `prepareAuth` (source lines 37–57), modelled from the
WHATWG URL standard and ECMA-262 on the fragment the script exercises.

The `new URL` model follows the WHATWG basic URL parser on absolute URLs
with an authority: the input is trimmed of leading/trailing C0
controls/space and stripped of tabs and newlines; for a special scheme
(`http`, `https`, `ws`, `wss`, `ftp`) any run of `/` and `\x5c` after the
scheme's `:` is skipped (special-authority-ignore-slashes — so
`http:user:pass@h` parses with an authority exactly as
`http://user:pass@h` does), while a non-special scheme needs a literal
`//` to have an authority; the authority extends to the first `/`, `?`,
`#` (for special schemes also `\x5c`); userinfo is everything before the
authority's *last* `@`, with `user`/`pass` split at the *first* `:`;
after the `@` the first `:` starts the port (digits only, at most 65535,
the scheme's default port normalised away); special-scheme hosts are
lowercased, must avoid the forbidden domain code points and, when they
end in a number, are parsed and reserialised as IPv4 addresses;
non-special hosts are opaque and must avoid the forbidden host code
points.  `none` models the `TypeError` the constructor throws.  Outside
the modelled fragment — and reported unparsed, where the real constructor
may succeed — are: non-ASCII/IDNA and `%`-escaped or `xn--` special-scheme
hosts, `[…]` IPv6 hosts, the `file` scheme, and authority-less forms.
Userinfo is kept verbatim (the standard's userinfo re-encoding never
touches `%` and is invisible through `decodeURIComponent`), and the
path/query/fragment remainder is kept verbatim (percent-encoding,
dot-segment and `\x5c`-separator normalisation are not modelled); no
theorem below depends on these and all concrete inputs avoid them. -/

/-- Split a list at the last occurrence of `@`: `some (before, after)`;
`none` when there is no `@`. -/
def splitLastAt : List Char → Option (List Char × List Char)
  | [] => none
  | c :: cs =>
    match splitLastAt cs with
    | some (u, h) => some (c :: u, h)
    | none => if c = '@' then some ([], cs) else none

/-- Hexadecimal digit value (both cases), as accepted by `%`-escapes. -/
def hexVal (c : Char) : Option Nat :=
  if '0' ≤ c && c ≤ '9' then some (c.toNat - 48)
  else if 'A' ≤ c && c ≤ 'F' then some (c.toNat - 55)
  else if 'a' ≤ c && c ≤ 'f' then some (c.toNat - 87)
  else none

/-- Decode one `%hh` escape at the head of the list. -/
def pctByte : List Char → Option (Nat × List Char)
  | '%' :: h1 :: h2 :: r =>
    match hexVal h1, hexVal h2 with
    | some a, some b => some (16 * a + b, r)
    | _, _ => none
  | _ => none

/-- The outcome of the `fetch` call for one issue, as an oracle input to
the pure model: a network-level failure carrying the raw exception text
(which the script must never surface), or a response with its status,
status text and — when `response.json()` succeeds — the parsed body
(`none` models a body that fails to parse as JSON). -/
inductive FetchOutcome where
  | netErr (msg : List Char)
  | resp (status : Nat) (statusText : List Char) (body : Option JV)

/-- `response.ok`: status in the inclusive range 200–299. -/
def respOk (status : Nat) : Bool := 200 ≤ status && status ≤ 299

/-- `${response.status} - ${statusText}` with the
`response.statusText || "Unknown Error"` default (source lines 97–98). -/
def statusMsg (status : Nat) (statusText : List Char) : List Char :=
  Nat.toDigits 10 status ++ " - ".toList ++
    (if statusText.isEmpty then "Unknown Error".toList else statusText)

/-- The body of `fetchIssue`'s `try` block (source lines 81–101): an
`Except.error` is anything the block can throw — the rejected `fetch`
promise or a failing `response.json()`. -/
def fetchTry (linkPattern id : List Char) (o : FetchOutcome) : Except Unit (Option (List Char)) :=
  match o with
  | .netErr _ => Except.error ()
  | .resp st stx body =>
    if respOk st then
      match body with
      | none => Except.error ()
      | some data => Except.ok (toLine linkPattern id data)
    else Except.ok (some (toErrorLine linkPattern id (statusMsg st stx)))

/-- `fetchIssue` (source lines 80–105): the `catch` clause converts any
thrown error into a generic `Network Error` bullet, discarding the
exception text. -/
def fetchIssue (linkPattern id : List Char) (o : FetchOutcome) : Option (List Char) :=
  match fetchTry linkPattern id o with
  | Except.ok v => v
  | Except.error _ => some (toErrorLine linkPattern id "Network Error".toList)

/-- `results.filter(Boolean)` (source line 109): drops `null` and — were
one ever produced — the empty string. -/
def filterBoolean : List (Option (List Char)) → List (List Char)
  | [] => []
  | none :: xs => filterBoolean xs
  | some s :: xs => if s.isEmpty then filterBoolean xs else s :: filterBoolean xs

/-- The fixed output header (source line 111). -/
def headerChars : List Char := "**Issues**\n\n".toList

/-- A response body that is unusable for `toLine` (missing / falsy
`fields.summary`), the case the script silently drops. -/
def missingSummary (o : FetchOutcome) : Bool :=
  match o with
  | .resp st _ (some d) =>
    respOk st &&
      !(truthy d && truthy (getProp d fieldsK) && truthy (getProp (getProp d fieldsK) summaryK))
  | _ => false

/-- The whole process (source lines 1–118) as a pure function of its three
environment inputs and the per-issue fetch oracle: result is
`(exit code, standard output)`.  `Promise.all` preserves positional
order, so the concurrent fan-out is the `List.map` below; no code path of
the modelled main block throws, so the top-level `catch` (lines 113–118)
is unreachable and the exit code is always `0`. -/
def program (pattern linkPattern changelog : List Char)
    (o : List Char → FetchOutcome) : Nat × List Char :=
  let is := ids changelog
  if pattern.isEmpty || is.isEmpty then (0, [])
  else
    let results := is.map fun i => fetchIssue linkPattern i (o i)
    let lines := filterBoolean results
    if lines.isEmpty then (0, []) else (0, headerChars ++ jsJoinSep ['\n'] lines)

/-! ## Specification-level predicates used to state the claims -/

/-- The shape `[A-Z][A-Z0-9]+-\d+` of the spec's identifier pattern,
stated independently of the matcher. -/
def idShape (x : List Char) : Prop :=
  ∃ c run ds, x = c :: run ++ '-' :: ds ∧ isUpperAZ c = true ∧ run ≠ [] ∧
    (∀ a ∈ run, isUpAlnum a = true) ∧ ds ≠ [] ∧ ∀ a ∈ ds, isDigit09 a = true

/-- `x` occurs in `l` as a regex match immediately after `**` or `**[`:
some suffix of `l` (the tail of `l` from the occurrence's position on)
starts with the anchored match capturing `x`. -/
def occursAsMatch (x l : List Char) : Prop :=
  ∃ t r, t <:+ l ∧ matchAfterStars t = some (x, r)

/-- Substring test (used to exhibit credential leakage concretely). -/
def hasSub (pat : List Char) : List Char → Bool
  | [] => pat.isEmpty
  | c :: cs => pat.isPrefixOf (c :: cs) || hasSub pat cs

/-- Index of the first occurrence (length of the list when absent); used to
state first-occurrence ordering. -/
def idxOfL (a : List Char) : List (List Char) → Nat
  | [] => 0
  | x :: xs => if x = a then 0 else idxOfL a xs + 1

/-! ## Helper lemmas -/

theorem toLine_eq_none (lp id : List Char) (data : JV) :
    toLine lp id data = none ↔
      (truthy data = false ∨ truthy (getProp data fieldsK) = false ∨
        truthy (getProp (getProp data fieldsK) summaryK) = false) := by
  cases hd : truthy data <;>
    cases hf : truthy (getProp data fieldsK) <;>
      cases hs : truthy (getProp (getProp data fieldsK) summaryK) <;>
        simp [toLine, hd, hf, hs]

theorem toErrorLine_ne_nil (lp id e : List Char) : toErrorLine lp id e ≠ [] := by
  have h : "* **".toList = ['*', ' ', '*', '*'] := rfl
  simp [toErrorLine, h]

theorem toLine_ne_some_nil (lp id : List Char) (data : JV) : toLine lp id data ≠ some [] := by
  have h : "* **".toList = ['*', ' ', '*', '*'] := rfl
  unfold toLine
  split
  · simp
  · simp [h]

theorem fetchIssue_ne_some_nil (lp i : List Char) (o : FetchOutcome) :
    fetchIssue lp i o ≠ some [] := by
  cases o with
  | netErr m => simp [fetchIssue, fetchTry, toErrorLine_ne_nil]
  | resp st stx body =>
    cases hok : respOk st
    · cases body <;> simp [fetchIssue, fetchTry, hok, toErrorLine_ne_nil]
    · cases body with
      | none => simp [fetchIssue, fetchTry, hok, toErrorLine_ne_nil]
      | some d => simpa [fetchIssue, fetchTry, hok] using toLine_ne_some_nil lp i d

theorem fetchIssue_eq_none_iff (lp i : List Char) (o : FetchOutcome) :
    fetchIssue lp i o = none ↔ missingSummary o = true := by
  cases o with
  | netErr m => simp [fetchIssue, fetchTry, missingSummary]
  | resp st stx body =>
    cases hok : respOk st
    · cases body <;> simp [fetchIssue, fetchTry, missingSummary, hok, toErrorLine_ne_nil]
    · cases body with
      | none => simp [fetchIssue, fetchTry, missingSummary, hok, toErrorLine_ne_nil]
      | some d =>
        simp only [fetchIssue, fetchTry, missingSummary, hok, if_true]
        rw [toLine_eq_none]
        cases h1 : truthy d <;>
          cases h2 : truthy (getProp d fieldsK) <;>
            cases h3 : truthy (getProp (getProp d fieldsK) summaryK) <;>
              simp [h1, h2, h3]

theorem filterBoolean_map (f : α → Option (List Char))
    (hf : ∀ a l, f a = some l → l ≠ []) :
    ∀ L : List α, filterBoolean (L.map f) =
      (L.filter fun a => (f a).isSome).map fun a => (f a).getD [] := by
  intro L
  induction L with
  | nil => rfl
  | cons a L ih =>
    cases hfa : f a with
    | none => simp [filterBoolean, hfa, ih]
    | some l =>
      have hne : l ≠ [] := hf a l hfa
      have : l.isEmpty = false := by simp [List.isEmpty_iff, hne]
      simp [filterBoolean, hfa, this, ih]

/-! ## C6: empty pattern or empty identifier set means silent success -/

/-- C6: for every configuration in which the URL pattern is empty or the
extracted identifier set is empty, the process writes nothing to standard
output and terminates with exit code 0. -/
theorem empty_config_silent (pattern linkPattern changelog : List Char)
    (o : List Char → FetchOutcome) (h : pattern = [] ∨ ids changelog = []) :
    program pattern linkPattern changelog o = (0, []) := by
  unfold program
  rcases h with h | h <;> simp [h]

/-- Witness for C6 at a concrete configuration. -/
theorem empty_config_silent_witness :
    program [] ['x'] ("**AB-1 fix".toList) (fun _ => .netErr []) = (0, []) :=
  empty_config_silent [] ['x'] ("**AB-1 fix".toList) (fun _ => .netErr []) (Or.inl rfl)

/-! ## C5: error bullets for HTTP failures and network failures -/

/-- C5: a non-2xx response yields an error bullet with the numeric status
code and the status phrase (defaulting to `Unknown Error` when the phrase
is empty); a network-level failure yields a bullet with only the generic
category `Network Error`, independent of the raw exception text. -/
theorem fetchIssue_error_lines (lp i : List Char) (st : Nat) (stx : List Char)
    (body : Option JV) (m m2 : List Char) (hst : respOk st = false) :
    fetchIssue lp i (.resp st stx body) =
      some (toErrorLine lp i (Nat.toDigits 10 st ++ " - ".toList ++
        (if stx.isEmpty then "Unknown Error".toList else stx))) ∧
    fetchIssue lp i (.netErr m) = some (toErrorLine lp i "Network Error".toList) ∧
    fetchIssue lp i (.netErr m) = fetchIssue lp i (.netErr m2) := by
  refine ⟨?_, rfl, rfl⟩
  simp [fetchIssue, fetchTry, hst, statusMsg]

/-- Witness for C5: a 404 with phrase, a 500 without phrase, and a network
failure whose raw text does not reach the bullet. -/
theorem fetchIssue_error_lines_witness :
    fetchIssue [] ("AB-1".toList) (.resp 404 "Not Found".toList none) =
      some ("* **AB-1**: Failed to fetch (404 - Not Found)".toList) ∧
    fetchIssue [] ("AB-1".toList) (.resp 500 [] none) =
      some ("* **AB-1**: Failed to fetch (500 - Unknown Error)".toList) ∧
    fetchIssue [] ("AB-1".toList) (.netErr "secret http://u:p@h".toList) =
      some ("* **AB-1**: Failed to fetch (Network Error)".toList) := by
  have h1 := fetchIssue_error_lines [] ("AB-1".toList) 404 ("Not Found".toList) none
    ("x".toList) [] (by decide)
  have h2 := fetchIssue_error_lines [] ("AB-1".toList) 500 [] none
    ("secret http://u:p@h".toList) [] (by decide)
  exact ⟨h1.1.trans (by decide), h2.1.trans (by decide), h2.2.1.trans (by decide)⟩

/-! ## C9: fetchIssue always settles; JSON-parse failure is handled like a
transport failure -/

/-- C9: `fetchIssue` never propagates an exception — every outcome yields
`none` or a non-empty bullet — and a 2xx response whose body fails to
parse as JSON is caught by the same handler as transport failures,
yielding the `Network Error` bullet. -/
theorem fetchIssue_settles (lp i : List Char) (st : Nat) (stx m : List Char)
    (hok : respOk st = true) :
    fetchIssue lp i (.resp st stx none) = fetchIssue lp i (.netErr m) ∧
    fetchIssue lp i (.resp st stx none) =
      some (toErrorLine lp i "Network Error".toList) ∧
    (∀ o : FetchOutcome, fetchIssue lp i o = none ∨
      ∃ l, fetchIssue lp i o = some l ∧ l ≠ []) := by
  refine ⟨by simp [fetchIssue, fetchTry, hok], by simp [fetchIssue, fetchTry, hok], ?_⟩
  intro o
  cases hfi : fetchIssue lp i o with
  | none => exact Or.inl rfl
  | some l =>
    refine Or.inr ⟨l, rfl, ?_⟩
    intro hnil
    exact fetchIssue_ne_some_nil lp i o (hnil ▸ hfi)

/-- Witness for C9: a 200 response with an unparsable body produces the
generic network-error bullet. -/
theorem fetchIssue_settles_witness :
    fetchIssue [] ("CD-2".toList) (.resp 200 "OK".toList none) =
      some ("* **CD-2**: Failed to fetch (Network Error)".toList) :=
  (fetchIssue_settles [] ("CD-2".toList) 200 ("OK".toList) ("boom".toList)
    (by decide)).2.1.trans (by decide)

/-! ## C10: falsy `fields.summary` drops the line; empty status/type names
are omitted -/

/-- C10: `toLine` returns `null` exactly when `fields.summary` is falsy —
so an empty-string summary is dropped exactly like an absent one — and an
empty `status.name` or `issuetype.name` is treated as absent, leaving the
`(status · type)` suffix unchanged. -/
theorem toLine_falsy_summary (lp i : List Char) (data t : JV) (sum : List Char)
    (hsum : sum ≠ []) :
    (toLine lp i data = none ↔
      (truthy data = false ∨ truthy (getProp data fieldsK) = false ∨
        truthy (getProp (getProp data fieldsK) summaryK) = false)) ∧
    toLine lp i (.jobj [(fieldsK, .jobj [(summaryK, .jstr [])])]) =
      toLine lp i (.jobj [(fieldsK, .jobj [])]) ∧
    toLine lp i (.jobj [(fieldsK, .jobj [(summaryK, .jstr sum),
        (statusK, .jobj [(nameK, .jstr [])]), (issuetypeK, t)])]) =
      toLine lp i (.jobj [(fieldsK, .jobj [(summaryK, .jstr sum), (issuetypeK, t)])]) ∧
    toLine lp i (.jobj [(fieldsK, .jobj [(summaryK, .jstr sum), (statusK, t),
        (issuetypeK, .jobj [(nameK, .jstr [])])])]) =
      toLine lp i (.jobj [(fieldsK, .jobj [(summaryK, .jstr sum), (statusK, t)])]) := by
  obtain ⟨c, cs, rfl⟩ := List.exists_cons_of_ne_nil hsum
  exact ⟨toLine_eq_none lp i data, rfl, rfl, rfl⟩

/-! ## C3: the identifier extractor -/

theorem mem_takeWhile_pred {p : Char → Bool} :
    ∀ (l : List Char) (a : Char), a ∈ l.takeWhile p → p a = true := by
  intro l
  induction l with
  | nil => intro a ha; cases ha
  | cons c cs ih =>
    intro a ha
    rw [List.takeWhile] at ha
    cases hc : p c with
    | false => rw [hc] at ha; cases ha
    | true =>
      rw [hc] at ha
      rcases List.mem_cons.mp ha with rfl | ha2
      · exact hc
      · exact ih a ha2

theorem matchIdBody_inv : ∀ {l x r : List Char}, matchIdBody l = some (x, r) →
    ∃ c run ds, l = c :: (run ++ '-' :: (ds ++ r)) ∧ x = c :: (run ++ '-' :: ds) ∧
      isUpperAZ c = true ∧ run ≠ [] ∧ (∀ a ∈ run, isUpAlnum a = true) ∧ ds ≠ [] ∧
      (∀ a ∈ ds, isDigit09 a = true) := by
  intro l x r h
  cases l with
  | nil => cases h
  | cons c cs =>
    cases hup : isUpperAZ c with
    | false => simp [matchIdBody, hup] at h
    | true =>
      cases hrun : (cs.takeWhile isUpAlnum).isEmpty with
      | true => simp [matchIdBody, hup, hrun] at h
      | false =>
        cases heq : cs.dropWhile isUpAlnum with
        | nil => simp [matchIdBody, hup, hrun, heq] at h
        | cons d r2 =>
          by_cases hd : d = '-'
          · subst hd
            cases hds : (r2.takeWhile isDigit09).isEmpty with
            | true => simp [matchIdBody, hup, hrun, heq, hds] at h
            | false =>
              rw [matchIdBody.eq_def] at h
              simp only [hup, hrun, heq, hds, if_true, if_false, Bool.false_eq_true,
                if_pos rfl] at h
              injection h with h2
              injection h2 with hx hr
              have hr2 : r2 = r2.takeWhile isDigit09 ++ r := by
                rw [← hr, List.takeWhile_append_dropWhile]
              have hcs : cs =
                  cs.takeWhile isUpAlnum ++ ('-' :: (r2.takeWhile isDigit09 ++ r)) := by
                conv_lhs => rw [← List.takeWhile_append_dropWhile (p := isUpAlnum) (l := cs)]
                rw [heq, ← hr2]
              refine ⟨c, cs.takeWhile isUpAlnum, r2.takeWhile isDigit09, ?_, ?_, hup, ?_,
                fun a ha => mem_takeWhile_pred _ a ha, ?_,
                fun a ha => mem_takeWhile_pred _ a ha⟩
              · rw [← hcs]
              · rw [← hx]
                simp
              · intro hnil
                rw [hnil] at hrun
                simp [List.isEmpty] at hrun
              · intro hnil
                rw [hnil] at hds
                simp [List.isEmpty] at hds
          · simp [matchIdBody, hup, hrun, heq, hd] at h

theorem matchAfterStars_inv : ∀ {l x r : List Char}, matchAfterStars l = some (x, r) →
    ∃ br, (br = [] ∨ br = ['[']) ∧ l = '*' :: '*' :: (br ++ (x ++ r)) ∧
      ∃ c run ds, x = c :: (run ++ '-' :: ds) ∧ isUpperAZ c = true ∧ run ≠ [] ∧
        (∀ a ∈ run, isUpAlnum a = true) ∧ ds ≠ [] ∧ (∀ a ∈ ds, isDigit09 a = true) := by
  intro l x r h
  rw [matchAfterStars.eq_def] at h
  split at h
  · obtain ⟨c, run, ds, hl, hx, hup, hrun_ne, hrun, hds_ne, hds⟩ := matchIdBody_inv h
    refine ⟨['['], Or.inr rfl, ?_, c, run, ds, hx, hup, hrun_ne, hrun, hds_ne, hds⟩
    rw [hl, hx]
    simp
  · obtain ⟨c, run, ds, hl, hx, hup, hrun_ne, hrun, hds_ne, hds⟩ := matchIdBody_inv h
    refine ⟨[], Or.inl rfl, ?_, c, run, ds, hx, hup, hrun_ne, hrun, hds_ne, hds⟩
    rw [hl, hx]
    simp
  · cases h

theorem matchAfterStars_rest_lt {l x r : List Char} (h : matchAfterStars l = some (x, r)) :
    r.length < l.length := by
  obtain ⟨br, _, hl, c, run, ds, hx, _⟩ := matchAfterStars_inv h
  rw [hl, hx]
  simp
  omega

theorem scanIdsAux_nil : ∀ f, scanIdsAux f [] = [] := by
  intro f; cases f <;> rfl

theorem scanIdsAux_congr : ∀ n f1 f2 l, l.length ≤ n → l.length ≤ f1 → l.length ≤ f2 →
    scanIdsAux f1 l = scanIdsAux f2 l := by
  intro n
  induction n with
  | zero =>
    intro f1 f2 l hn _ _
    have : l = [] := List.eq_nil_of_length_eq_zero (Nat.le_zero.mp hn)
    subst this
    rw [scanIdsAux_nil, scanIdsAux_nil]
  | succ n ih =>
    intro f1 f2 l hn h1 h2
    cases l with
    | nil => rw [scanIdsAux_nil, scanIdsAux_nil]
    | cons c cs =>
      cases f1 with
      | zero => simp at h1
      | succ f1 =>
        cases f2 with
        | zero => simp at h2
        | succ f2 =>
          simp only [scanIdsAux]
          cases hm : matchAfterStars (c :: cs) with
          | some p =>
            obtain ⟨x, r⟩ := p
            simp only [hm]
            have hr := matchAfterStars_rest_lt hm
            simp only [List.length_cons] at hn h1 h2 hr
            rw [ih f1 f2 r (by omega) (by omega) (by omega)]
          | none =>
            simp only [hm]
            simp only [List.length_cons] at hn h1 h2
            exact ih f1 f2 cs (by omega) (by omega) (by omega)

theorem scanIds_cons (c : Char) (cs : List Char) : scanIds (c :: cs) =
    match matchAfterStars (c :: cs) with
    | some (x, r) => x :: scanIds r
    | none => scanIds cs := by
  unfold scanIds
  simp only [List.length_cons, scanIdsAux]
  cases hm : matchAfterStars (c :: cs) with
  | some p =>
    obtain ⟨x, r⟩ := p
    simp only [hm]
    have hr := matchAfterStars_rest_lt hm
    simp only [List.length_cons] at hr
    exact congrArg (x :: ·) (scanIdsAux_congr cs.length cs.length r.length r
      (by omega) (by omega) (by omega))
  | none => simp only [hm]

theorem star_not_in_pre {br y : List Char} (hbr : br = [] ∨ br = ['['])
    (hy : ∃ c run ds, y = c :: (run ++ '-' :: ds) ∧ isUpperAZ c = true ∧ run ≠ [] ∧
      (∀ a ∈ run, isUpAlnum a = true) ∧ ds ≠ [] ∧ (∀ a ∈ ds, isDigit09 a = true)) :
    ∀ a ∈ br ++ y, a ≠ '*' := by
  obtain ⟨c, run, ds, hyy, hup, _, hrun, _, hds⟩ := hy
  intro a ha heq
  subst heq
  rcases List.mem_append.mp ha with hin | hin
  · rcases hbr with rfl | rfl
    · cases hin
    · rw [List.mem_singleton] at hin; cases hin
  · rw [hyy] at hin
    rcases List.mem_cons.mp hin with hc | hin2
    · rw [← hc] at hup; cases hup
    · rcases List.mem_append.mp hin2 with hin3 | hin3
      · have := hrun _ hin3; cases this
      · rcases List.mem_cons.mp hin3 with hd | hin4
        · cases hd
        · have := hds _ hin4; cases this

theorem shape_of_inv {y : List Char}
    (hy : ∃ c run ds, y = c :: (run ++ '-' :: ds) ∧ isUpperAZ c = true ∧ run ≠ [] ∧
      (∀ a ∈ run, isUpAlnum a = true) ∧ ds ≠ [] ∧ (∀ a ∈ ds, isDigit09 a = true)) :
    1 ≤ y.length := by
  obtain ⟨c, run, ds, hyy, _⟩ := hy
  rw [hyy]; simp

theorem sfx_drop {t l : List Char} (h : t <:+ l) : ∃ k, t = l.drop k := by
  obtain ⟨s, hs⟩ := h
  exact ⟨s.length, by rw [← hs, List.drop_left]⟩

theorem sfx_of_short {t A B : List Char} (h : t <:+ A ++ B) (hlen : t.length ≤ B.length) :
    t <:+ B := by
  obtain ⟨s, hs⟩ := h
  have hslen : s.length + t.length = A.length + B.length := by
    have hl := congrArg List.length hs
    simpa using hl
  have hA : A.length ≤ s.length := by omega
  have h1 : t = (A ++ B).drop s.length := by rw [← hs, List.drop_left]
  rw [List.drop_append_eq_append_drop, List.drop_eq_nil_of_le hA, List.nil_append] at h1
  exact h1 ▸ List.drop_suffix _ _

theorem no_match_inside {br y r0 t x r : List Char} (hbr : br = [] ∨ br = ['['])
    (hy : ∃ c run ds, y = c :: (run ++ '-' :: ds) ∧ isUpperAZ c = true ∧ run ≠ [] ∧
      (∀ a ∈ run, isUpAlnum a = true) ∧ ds ≠ [] ∧ (∀ a ∈ ds, isDigit09 a = true))
    (ht : t <:+ (br ++ y) ++ r0) (hlen : r0.length < t.length)
    (h : matchAfterStars t = some (x, r)) : False := by
  obtain ⟨s, hs⟩ := ht
  have hslen : s.length + t.length = br.length + (y.length + r0.length) := by
    have hl := congrArg List.length hs
    simpa using hl
  have hkb : s.length < (br ++ y).length := by
    simp only [List.length_append]
    omega
  have hk : t = (br ++ y).drop s.length ++ r0 := by
    have h1 : t = ((br ++ y) ++ r0).drop s.length := by rw [← hs, List.drop_left]
    rw [List.drop_append_eq_append_drop, Nat.sub_eq_zero_of_le (Nat.le_of_lt hkb),
      List.drop_zero] at h1
    exact h1
  obtain ⟨br2, _, hl2, _⟩ := matchAfterStars_inv h
  cases hd : (br ++ y).drop s.length with
  | nil =>
    rw [List.drop_eq_nil_iff] at hd
    omega
  | cons a rest =>
    have ha : a ∈ br ++ y :=
      List.drop_subset s.length (br ++ y) (hd ▸ List.mem_cons_self a rest)
    have hstar : a = '*' := by
      rw [hd] at hk
      rw [hk] at hl2
      have h12 := congrArg List.head? hl2
      simpa using h12
    exact star_not_in_pre hbr hy a ha hstar

theorem occurs_mem_scanIds : ∀ n l t x r, l.length ≤ n → t <:+ l →
    matchAfterStars t = some (x, r) → x ∈ scanIds l := by
  intro n
  induction n with
  | zero =>
    intro l t x r hn ht h
    have hl : l = [] := List.eq_nil_of_length_eq_zero (Nat.le_zero.mp hn)
    subst hl
    rw [List.suffix_nil] at ht
    subst ht
    cases h
  | succ n ih =>
    intro l t x r hn ht h
    cases l with
    | nil =>
      rw [List.suffix_nil] at ht
      subst ht
      cases h
    | cons c cs =>
      rw [scanIds_cons]
      cases hm : matchAfterStars (c :: cs) with
      | none =>
        rcases List.suffix_cons_iff.mp ht with rfl | ht2
        · rw [hm] at h; cases h
        · simp only [List.length_cons] at hn
          exact ih cs t x r (by omega) ht2 h
      | some p =>
        obtain ⟨y, r0⟩ := p
        obtain ⟨br, hbr, hl, hyshape⟩ := matchAfterStars_inv hm
        rcases List.suffix_cons_iff.mp ht with rfl | ht2
        · rw [hm] at h
          injection h with h2
          injection h2 with hx hr
          exact hx ▸ List.mem_cons_self y _
        · injection hl with hc1 hcs0
          have hcs : cs = '*' :: ((br ++ y) ++ r0) := by
            rw [hcs0]; simp
          by_cases hlen : t.length ≤ r0.length
          · have hr0 : t <:+ r0 := by
              rw [hcs] at ht2
              rcases List.suffix_cons_iff.mp ht2 with rfl | ht3
              · exfalso
                simp at hlen
                omega
              · exact sfx_of_short ht3 hlen
            have hr0len : r0.length < (c :: cs).length := matchAfterStars_rest_lt hm
            simp only [List.length_cons] at hn hr0len
            exact List.mem_cons_of_mem y (ih r0 t x r (by omega) hr0 h)
          · exfalso
            rw [hcs] at ht2
            rcases List.suffix_cons_iff.mp ht2 with rfl | ht3
            · obtain ⟨br2, _, hl2, _⟩ := matchAfterStars_inv h
              injection hl2 with _ h2
              cases hbd : br ++ y with
              | nil =>
                have hy1 := shape_of_inv hyshape
                have hbl : br.length + y.length = 0 := by
                  have h0 := congrArg List.length hbd
                  simpa using h0
                omega
              | cons a rest =>
                have ha : a ∈ br ++ y := hbd ▸ List.mem_cons_self a rest
                have hstar : a = '*' := by
                  rw [hbd] at h2
                  have h12 := congrArg List.head? h2
                  simpa using h12
                exact star_not_in_pre hbr hyshape a ha hstar
            · exact no_match_inside hbr hyshape ht3 (by omega) h

theorem scanIds_mem_occurs : ∀ n l x, l.length ≤ n → x ∈ scanIds l →
    ∃ t r, t <:+ l ∧ matchAfterStars t = some (x, r) := by
  intro n
  induction n with
  | zero =>
    intro l x hn hm
    have hl : l = [] := List.eq_nil_of_length_eq_zero (Nat.le_zero.mp hn)
    subst hl
    cases hm
  | succ n ih =>
    intro l x hn hm
    cases l with
    | nil => cases hm
    | cons c cs =>
      rw [scanIds_cons] at hm
      cases hmt : matchAfterStars (c :: cs) with
      | none =>
        rw [hmt] at hm
        simp only [List.length_cons] at hn
        obtain ⟨t, r, ht, hmm⟩ := ih cs x (by omega) hm
        exact ⟨t, r, ht.trans (List.suffix_cons c cs), hmm⟩
      | some p =>
        obtain ⟨y, r0⟩ := p
        rw [hmt] at hm
        rcases List.mem_cons.mp hm with rfl | hm2
        · exact ⟨c :: cs, r0, List.suffix_refl _, hmt⟩
        · obtain ⟨br, hbr, hl, _⟩ := matchAfterStars_inv hmt
          have hr0sfx : r0 <:+ c :: cs := by
            rw [hl]
            exact ⟨'*' :: '*' :: (br ++ y), by simp⟩
          have hr0len : r0.length < (c :: cs).length := matchAfterStars_rest_lt hmt
          simp only [List.length_cons] at hn hr0len
          obtain ⟨t, r, ht, hmm⟩ := ih r0 x (by omega) hm2
          exact ⟨t, r, ht.trans hr0sfx, hmm⟩

theorem dedupFirstAux_mem_of : ∀ w seen x, x ∈ dedupFirstAux seen w → x ∈ w ∧ x ∉ seen := by
  intro w
  induction w with
  | nil => intro seen x h; cases h
  | cons c cs ih =>
    intro seen x h
    rw [dedupFirstAux] at h
    by_cases hc : c ∈ seen
    · rw [if_pos hc] at h
      obtain ⟨h1, h2⟩ := ih seen x h
      exact ⟨List.mem_cons_of_mem c h1, h2⟩
    · rw [if_neg hc] at h
      rcases List.mem_cons.mp h with rfl | h2
      · exact ⟨List.mem_cons_self _ _, hc⟩
      · obtain ⟨h1, h2⟩ := ih (c :: seen) x h2
        exact ⟨List.mem_cons_of_mem c h1, fun hx => h2 (List.mem_cons_of_mem c hx)⟩

theorem dedupFirstAux_mem : ∀ w seen x, x ∈ w → x ∉ seen → x ∈ dedupFirstAux seen w := by
  intro w
  induction w with
  | nil => intro seen x h _; cases h
  | cons c cs ih =>
    intro seen x h hns
    rw [dedupFirstAux]
    by_cases hc : c ∈ seen
    · rw [if_pos hc]
      rcases List.mem_cons.mp h with rfl | h2
      · exact absurd hc hns
      · exact ih seen x h2 hns
    · rw [if_neg hc]
      rcases List.mem_cons.mp h with rfl | h2
      · exact List.mem_cons_self _ _
      · by_cases hxc : x = c
        · subst hxc; exact List.mem_cons_self _ _
        · refine List.mem_cons_of_mem c (ih (c :: seen) x h2 ?_)
          intro hx
          rcases List.mem_cons.mp hx with h3 | h3
          · exact hxc h3
          · exact hns h3

theorem dedupFirstAux_nodup : ∀ w seen, (dedupFirstAux seen w).Nodup := by
  intro w
  induction w with
  | nil => intro seen; exact List.nodup_nil
  | cons c cs ih =>
    intro seen
    rw [dedupFirstAux]
    by_cases hc : c ∈ seen
    · rw [if_pos hc]; exact ih seen
    · rw [if_neg hc]
      refine List.Nodup.cons ?_ (ih (c :: seen))
      intro hx
      exact (dedupFirstAux_mem_of cs (c :: seen) c hx).2 (List.mem_cons_self _ _)

theorem idxOfL_cons_of_ne {a c : List Char} (w : List (List Char)) (h : ¬ c = a) :
    idxOfL a (c :: w) = idxOfL a w + 1 := by rw [idxOfL, if_neg h]

theorem dedupFirstAux_pairwise : ∀ w seen,
    (dedupFirstAux seen w).Pairwise (fun a b => idxOfL a w < idxOfL b w) := by
  intro w
  induction w with
  | nil => intro seen; exact List.Pairwise.nil
  | cons c cs ih =>
    intro seen
    rw [dedupFirstAux]
    by_cases hc : c ∈ seen
    · rw [if_pos hc]
      refine List.Pairwise.imp_of_mem ?_ (ih seen)
      intro a b ha hb hab
      have hna : ¬ c = a := fun h =>
        (dedupFirstAux_mem_of cs seen a ha).2 (by rw [← h]; exact hc)
      have hnb : ¬ c = b := fun h =>
        (dedupFirstAux_mem_of cs seen b hb).2 (by rw [← h]; exact hc)
      rw [idxOfL_cons_of_ne cs hna, idxOfL_cons_of_ne cs hnb]
      omega
    · rw [if_neg hc]
      refine List.Pairwise.cons ?_ ?_
      · intro b hb
        have hnb : ¬ c = b := fun h =>
          (dedupFirstAux_mem_of cs (c :: seen) b hb).2 (by rw [← h]; exact List.mem_cons_self c seen)
        rw [idxOfL_cons_of_ne cs hnb, idxOfL, if_pos rfl]
        omega
      · refine List.Pairwise.imp_of_mem ?_ (ih (c :: seen))
        intro a b ha hb hab
        have hna : ¬ c = a := fun h =>
          (dedupFirstAux_mem_of cs (c :: seen) a ha).2 (by rw [← h]; exact List.mem_cons_self c seen)
        have hnb : ¬ c = b := fun h =>
          (dedupFirstAux_mem_of cs (c :: seen) b hb).2 (by rw [← h]; exact List.mem_cons_self c seen)
        rw [idxOfL_cons_of_ne cs hna, idxOfL_cons_of_ne cs hnb]
        omega

/-- C3: the extractor returns each identifier that occurs immediately
after `**` or `**[` — as the regex `[A-Z][A-Z0-9]+-\d+` matches it there —
at most once (the result has no duplicates and membership coincides with
occurrence), every returned string has the identifier shape, and the
results are ordered by first occurrence in the match sequence. -/
theorem ids_extraction_spec (changelog : List Char) :
    (ids changelog).Nodup ∧
    (∀ x, x ∈ ids changelog ↔ occursAsMatch x changelog) ∧
    (∀ x, x ∈ ids changelog → idShape x) ∧
    (ids changelog).Pairwise
      (fun a b => idxOfL a (scanIds changelog) < idxOfL b (scanIds changelog)) := by
  have hmem : ∀ x, x ∈ ids changelog ↔ x ∈ scanIds changelog := by
    intro x
    constructor
    · intro h; exact (dedupFirstAux_mem_of _ _ _ h).1
    · intro h; exact dedupFirstAux_mem _ _ _ h (by simp)
  refine ⟨dedupFirstAux_nodup _ _, ?_, ?_, dedupFirstAux_pairwise _ _⟩
  · intro x
    rw [hmem x]
    unfold occursAsMatch
    constructor
    · intro h
      exact scanIds_mem_occurs changelog.length changelog x (Nat.le_refl _) h
    · rintro ⟨t, r, ht, hmm⟩
      exact occurs_mem_scanIds changelog.length changelog t x r (Nat.le_refl _) ht hmm
  · intro x hx
    obtain ⟨t, r, ht, hmm⟩ := scanIds_mem_occurs changelog.length changelog x (Nat.le_refl _)
      ((hmem x).mp hx)
    obtain ⟨br, hbr, hl, c, run, ds, hx2, hup, hrunne, hrun, hdsne, hds⟩ :=
      matchAfterStars_inv hmm
    exact ⟨c, run, ds, by rw [hx2]; simp, hup, hrunne, hrun, hdsne, hds⟩

/-- Witness for C3 at a concrete changelog. -/
theorem ids_extraction_spec_witness : idShape ("AB-12".toList) :=
  (ids_extraction_spec ("x **AB-12 y".toList)).2.2.1 ("AB-12".toList) (by decide)

/-! ## C7: `buildLink` substitutes every `${id}` occurrence -/

theorem isPrefixOf_true_iff : ∀ l1 l2 : List Char, l1.isPrefixOf l2 = true ↔ l1 <+: l2 := by
  intro l1
  induction l1 with
  | nil => intro l2; simp [List.isPrefixOf]
  | cons a as ih =>
    intro l2
    cases l2 with
    | nil =>
      simp only [List.isPrefixOf]
      constructor
      · intro h; cases h
      · intro h; exact absurd (List.eq_nil_of_prefix_nil h) (by simp)
    | cons b bs =>
      simp [List.isPrefixOf, Bool.and_eq_true, beq_iff_eq, ih bs, List.cons_prefix_cons]

theorem replace_skip (rep : List Char) (c : Char) (cs : List Char)
    (h : idPlaceholder.isPrefixOf (c :: cs) = false) :
    replacePlaceholder rep (c :: cs) = c :: replacePlaceholder rep cs := by
  rw [replacePlaceholder.eq_def]
  split
  · rename_i heq; cases heq
  · rename_i cs2 heq
    rw [heq] at h
    simp [idPlaceholder, List.isPrefixOf] at h
  · rename_i hno heq
    injection heq with h1 h2
    subst h1; subst h2; rfl

theorem replace_of_hasSub_false (rep : List Char) :
    ∀ p : List Char, hasSub idPlaceholder p = false → replacePlaceholder rep p = p := by
  intro p
  induction p with
  | nil => intro _; rfl
  | cons c cs ih =>
    intro h
    rw [hasSub] at h
    rcases Bool.or_eq_false_iff.mp h with ⟨h1, h2⟩
    rw [replace_skip rep c cs h1, ih h2]

theorem hasSub_of_pfx {pat w : List Char} (hne : pat ≠ []) (h : pat <+: w) :
    hasSub pat w = true := by
  cases w with
  | nil => exact absurd (List.eq_nil_of_prefix_nil h) hne
  | cons c cs => rw [hasSub, (isPrefixOf_true_iff pat (c :: cs)).mpr h]; rfl

theorem idPlaceholder_no_self_overlap :
    ∀ k < 5, 0 < k → ¬ (idPlaceholder.drop k <+: idPlaceholder) := by decide

theorem pfx_take_of_long {pat q : List Char} {X : List Char} (h : pat <+: q ++ X)
    (hlen : pat.length ≤ q.length) : pat <+: q := by
  obtain ⟨r, hr⟩ := h
  have h1 : pat = (q ++ X).take pat.length := by
    rw [← hr, List.take_left]
  rw [List.take_append_of_le_length hlen] at h1
  exact h1 ▸ ⟨q.drop pat.length, List.take_append_drop _ _⟩

theorem pfx_straddle {pat q X : List Char} (h : pat <+: q ++ (pat ++ X))
    (hlen : q.length < pat.length) : pat.drop q.length <+: pat := by
  obtain ⟨r, hr⟩ := h
  have h1 : pat = (q ++ (pat ++ X)).take pat.length := by
    rw [← hr, List.take_left]
  have h2 : pat.drop q.length = ((q ++ (pat ++ X)).take pat.length).drop q.length := by
    rw [← h1]
  rw [List.drop_take, List.drop_left] at h2
  have h3 : pat.drop q.length = pat.take (pat.length - q.length) := by
    rw [h2, List.take_append_of_le_length (by omega)]
  exact h3 ▸ ⟨pat.drop (pat.length - q.length), List.take_append_drop _ _⟩

theorem replace_step (rep : List Char) :
    ∀ p t : List Char, hasSub idPlaceholder p = false →
      replacePlaceholder rep (p ++ (idPlaceholder ++ t)) =
        p ++ rep ++ replacePlaceholder rep t := by
  intro p
  induction p with
  | nil => intro t _; rfl
  | cons c p2 ih =>
    intro t h
    rw [hasSub] at h
    rcases Bool.or_eq_false_iff.mp h with ⟨h1, h2⟩
    have hnp : idPlaceholder.isPrefixOf (c :: (p2 ++ (idPlaceholder ++ t))) = false := by
      have h5 : idPlaceholder.length = 5 := rfl
      by_contra hcon
      have hpf : idPlaceholder <+: (c :: p2) ++ (idPlaceholder ++ t) :=
        (isPrefixOf_true_iff _ _).mp (Bool.of_not_eq_false hcon)
      by_cases hl : idPlaceholder.length ≤ (c :: p2).length
      · have := hasSub_of_pfx (by decide) (pfx_take_of_long hpf hl)
        rw [hasSub, h1, h2] at this
        cases this
      · have hstr := pfx_straddle hpf (by omega)
        exact idPlaceholder_no_self_overlap (c :: p2).length (by omega) (by simp) hstr
    calc replacePlaceholder rep (c :: (p2 ++ (idPlaceholder ++ t)))
        = c :: replacePlaceholder rep (p2 ++ (idPlaceholder ++ t)) :=
          replace_skip rep c _ hnp
      _ = c :: p2 ++ rep ++ replacePlaceholder rep t := by rw [ih t h2]; simp

/-- C7: `buildLink` replaces every occurrence of the literal `${id}` in
the template with the percent-encoded identifier (stated over an arbitrary
decomposition of the template into placeholder-free fragments joined by
the placeholder), and in particular
`buildLink("https://x/${id}", "ABC-123") = "https://x/ABC-123"`. -/
theorem buildLink_spec (i : List Char) (parts : List (List Char)) (hne : parts ≠ [])
    (hocc : ∀ p ∈ parts, hasSub idPlaceholder p = false) :
    buildLink (jsJoinSep idPlaceholder parts) i =
      jsJoinSep (encodeURIComponent i) parts ∧
    buildLink ("https://x/${id}".toList) ("ABC-123".toList) = "https://x/ABC-123".toList := by
  refine ⟨?_, by decide⟩
  unfold buildLink
  induction parts with
  | nil => cases hne rfl
  | cons p ps ih =>
    cases ps with
    | nil => exact replace_of_hasSub_false _ p (hocc p (by simp))
    | cons q qs =>
      have h1 : jsJoinSep idPlaceholder (p :: q :: qs) =
          p ++ (idPlaceholder ++ jsJoinSep idPlaceholder (q :: qs)) := by
        rw [jsJoinSep]
        · simp
        · simp
      have h2 : jsJoinSep (encodeURIComponent i) (p :: q :: qs) =
          p ++ encodeURIComponent i ++ jsJoinSep (encodeURIComponent i) (q :: qs) := by
        rw [jsJoinSep]
        simp
      rw [h1, h2, replace_step _ p _ (hocc p (by simp)),
        ih (List.cons_ne_nil q qs) (fun r hr => hocc r (List.mem_cons_of_mem p hr))]

/-- Witness for C7 at a concrete decomposition. -/
theorem buildLink_spec_witness :
    buildLink (jsJoinSep idPlaceholder ["https://x/".toList, []]) ("ABC-123".toList) =
      jsJoinSep (encodeURIComponent ("ABC-123".toList)) ["https://x/".toList, []] :=
  (buildLink_spec ("ABC-123".toList) ["https://x/".toList, []] (by simp)
    (by
      intro p hp
      rcases List.mem_cons.mp hp with rfl | hp2
      · decide
      · rw [List.mem_singleton] at hp2
        subst hp2
        decide)).1

/-! ## C2 / C1: `prepareAuth` and the request actually sent -/

theorem splitLastAt_eq_none :
    ∀ l : List Char, splitLastAt l = none → ∀ c ∈ l, c ≠ '@' := by
  intro l
  induction l with
  | nil => intro _ a ha; cases ha
  | cons c cs ih =>
    intro h a ha
    unfold splitLastAt at h
    cases hsp : splitLastAt cs with
    | some p => obtain ⟨p1, p2⟩ := p; rw [hsp] at h; cases h
    | none =>
      rw [hsp] at h
      by_cases hc : c = '@'
      · rw [if_pos hc] at h; cases h
      · rcases List.mem_cons.mp ha with rfl | ha2
        · exact hc
        · exact ih hsp a ha2

theorem splitLastAt_no_at :
    ∀ (l u h : List Char), splitLastAt l = some (u, h) → ∀ c ∈ h, c ≠ '@' := by
  intro l
  induction l with
  | nil => intro u h hsp; cases hsp
  | cons c cs ih =>
    intro u h hsp
    unfold splitLastAt at hsp
    cases hsp2 : splitLastAt cs with
    | some p =>
      obtain ⟨p1, p2⟩ := p
      rw [hsp2] at hsp
      cases hsp
      exact ih _ _ hsp2
    | none =>
      rw [hsp2] at hsp
      by_cases hc : c = '@'
      · rw [if_pos hc] at hsp
        cases hsp
        exact splitLastAt_eq_none cs hsp2
      · rw [if_neg hc] at hsp; cases hsp

/-- C4: the emitted lines are exactly one bullet per extracted identifier
whose outcome is not "missing summary", in the original
deduplicated-identifier order, and when at least one bullet exists the
output is the fixed `**Issues**` header, a blank line, and the bullets
joined by newlines. -/
theorem output_assembly (pattern linkPattern changelog : List Char)
    (o : List Char → FetchOutcome) (hp : pattern ≠ []) :
    filterBoolean ((ids changelog).map fun i => fetchIssue linkPattern i (o i)) =
      ((ids changelog).filter fun i => !missingSummary (o i)).map
        (fun i => (fetchIssue linkPattern i (o i)).getD []) ∧
    (∀ i : List Char, (fetchIssue linkPattern i (o i)).isSome = !missingSummary (o i)) ∧
    program pattern linkPattern changelog o =
      (0, if (filterBoolean ((ids changelog).map fun i =>
              fetchIssue linkPattern i (o i))).isEmpty then []
          else headerChars ++ jsJoinSep ['\n']
            (filterBoolean ((ids changelog).map fun i => fetchIssue linkPattern i (o i)))) := by
  have hfne : ∀ (a l : List Char), fetchIssue linkPattern a (o a) = some l → l ≠ [] := by
    intro a l h hl
    exact fetchIssue_ne_some_nil linkPattern a (o a) (by rw [h, hl])
  have hsome : ∀ i : List Char,
      (fetchIssue linkPattern i (o i)).isSome = !missingSummary (o i) := by
    intro i
    cases hm : missingSummary (o i)
    · cases hfi : fetchIssue linkPattern i (o i) with
      | none =>
        have := (fetchIssue_eq_none_iff linkPattern i (o i)).mp hfi
        rw [hm] at this; cases this
      | some l => simp
    · have := (fetchIssue_eq_none_iff linkPattern i (o i)).mpr hm
      simp [this]
  refine ⟨?_, hsome, ?_⟩
  · rw [filterBoolean_map _ hfne]
    rw [List.filter_congr (fun a _ => hsome a)]
  · have hp2 : pattern.isEmpty = false := by simp [List.isEmpty_iff, hp]
    by_cases hids : ids changelog = []
    · simp [program, hp2, hids, filterBoolean]
    · have h2 : (ids changelog).isEmpty = false := by simp [List.isEmpty_iff, hids]
      simp [program, hp2, h2]
      split <;> simp_all

/-- Witness for C4: the spec's sample scenario — a duplicated `ABC-1`
succeeding with status `Done` and `XYZ-2` failing at network level. -/
theorem output_assembly_witness :
    program ("https://api/issue/${id}".toList) []
      ("**[ABC-1](x) fix\n**ABC-1** dup\n**XYZ-2** other".toList)
      (fun i =>
        if i = "ABC-1".toList then
          .resp 200 "OK".toList (some (.jobj [(fieldsK, .jobj
            [(summaryK, .jstr "Fix bug".toList),
             (statusK, .jobj [(nameK, .jstr "Done".toList)])])]))
        else .netErr "timeout at http://u:p@api".toList) =
      (0, ("**Issues**\n\n* **ABC-1**: Fix bug (Done)\n* **XYZ-2**: Failed to fetch (Network Error)".toList)) := by
  have h := output_assembly ("https://api/issue/${id}".toList) []
    ("**[ABC-1](x) fix\n**ABC-1** dup\n**XYZ-2** other".toList)
    (fun i =>
      if i = "ABC-1".toList then
        .resp 200 "OK".toList (some (.jobj [(fieldsK, .jobj
          [(summaryK, .jstr "Fix bug".toList),
           (statusK, .jobj [(nameK, .jstr "Done".toList)])])]))
      else .netErr "timeout at http://u:p@api".toList) (by decide)
  exact h.2.2.trans (by decide)

/-- Witness for C10 at concrete inputs. -/
theorem toLine_falsy_summary_witness :
    toLine [] ("EF-3".toList) (.jobj [(fieldsK, .jobj [(summaryK, .jstr [])])]) =
      toLine [] ("EF-3".toList) (.jobj [(fieldsK, .jobj [])]) ∧
    toLine [] ("EF-3".toList) (.jobj [(fieldsK, .jobj [(summaryK, .jstr "Fix".toList),
        (statusK, .jobj [(nameK, .jstr [])]),
        (issuetypeK, .jobj [(nameK, .jstr "Bug".toList)])])]) =
      toLine [] ("EF-3".toList) (.jobj [(fieldsK, .jobj [(summaryK, .jstr "Fix".toList),
        (issuetypeK, .jobj [(nameK, .jstr "Bug".toList)])])]) :=
  let h := toLine_falsy_summary [] ("EF-3".toList) JV.jnull
    (.jobj [(nameK, .jstr "Bug".toList)]) ("Fix".toList) (by decide)
  ⟨h.2.1, h.2.2.1⟩

/-! ## C8: `sanitizeMessage` is idempotent -/

theorem munch_fl : ∀ l : List Char, munch .fl l = none := by
  intro l
  induction l with
  | nil => rfl
  | cons c cs ih => simpa [munch, stepA] using ih

theorem munch_ac : ∀ (l : List Char) (b : Bool), munch (.ac b) l = none := by
  intro l
  induction l with
  | nil => intro b; rfl
  | cons c cs ih => intro b; simpa [munch, stepA] using ih b

theorem munch_append_iff : ∀ (xs : List Char) (σ : MState) (ys1 ys2 : List Char),
    ((munch (walk σ xs) ys1 = none) ↔ (munch (walk σ xs) ys2 = none)) →
    ((munch σ (xs ++ ys1) = none) ↔ (munch σ (xs ++ ys2) = none)) := by
  intro xs
  induction xs with
  | nil => intro σ ys1 ys2 h; exact h
  | cons x xs ih =>
    intro σ ys1 ys2 h
    have hw : walk σ (x :: xs) = walk (stepW σ x) xs := rfl
    rw [hw] at h
    simp only [List.cons_append, munch]
    cases hst : stepA σ x with
    | inl τ =>
      have hwt : stepW σ x = τ := by rw [stepW, hst]
      rw [hwt] at h
      exact ih τ ys1 ys2 h
    | inr b => simp

theorem protoWalk : ∀ (hb : Bool) (σ : MState),
    walk σ (protoL hb) = .fl ∨ walk σ (protoL hb) = .r1z hb ∨
    (∃ b2, walk σ (protoL hb) = .r2 b2) ∨ (∃ b2, walk σ (protoL hb) = .ac b2) := by
  intro hb σ
  cases hb <;> cases σ <;>
    first
      | exact Or.inl rfl
      | exact Or.inr (Or.inl rfl)
      | exact Or.inr (Or.inr (Or.inl ⟨_, rfl⟩))
      | exact Or.inr (Or.inr (Or.inr ⟨_, rfl⟩))

theorem munch_r2_pend (b : Bool) : ∀ (bb t : List Char), (∀ c ∈ bb, c ≠ '@') →
    munch (.r2 b) (bb ++ '@' :: t) = some (b, t) := by
  intro bb
  induction bb with
  | nil => intro t _; rfl
  | cons c cs ih =>
    intro t h
    have hc : ¬ c = '@' := (h c (List.mem_cons_self _ _))
    simp only [List.cons_append, munch, stepA, if_neg hc]
    exact ih t (fun d hd => h d (List.mem_cons_of_mem c hd))

theorem munch_r1_pend (b : Bool) : ∀ (a bb t : List Char),
    (∀ c ∈ a, c ≠ ':' ∧ c ≠ '@') → bb ≠ [] → (∀ c ∈ bb, c ≠ '@') →
    munch (.r1 b) (a ++ ':' :: (bb ++ '@' :: t)) = some (b, t) := by
  intro a
  induction a with
  | nil =>
    intro bb t _ hbbne hbb
    cases bb with
    | nil => cases hbbne rfl
    | cons d ds =>
      have hd : ¬ d = '@' := hbb d (List.mem_cons_self _ _)
      show munch (.r2z b) ((d :: ds) ++ '@' :: t) = some (b, t)
      simp only [List.cons_append, munch, stepA, if_neg hd]
      exact munch_r2_pend b ds t (fun e he => hbb e (List.mem_cons_of_mem d he))
  | cons c cs ih =>
    intro bb t ha hbbne hbb
    have hc := ha c (List.mem_cons_self _ _)
    simp only [List.cons_append, munch, stepA, if_neg hc.1, if_neg hc.2]
    exact ih bb t (fun d hd => ha d (List.mem_cons_of_mem c hd)) hbbne hbb

theorem munch_r1z_block (b : Bool) (a bb s : List Char) (hane : a ≠ [])
    (ha : ∀ c ∈ a, c ≠ ':' ∧ c ≠ '@') (hbbne : bb ≠ []) (hbb : ∀ c ∈ bb, c ≠ '@') :
    munch (.r1z b) (a ++ ':' :: (bb ++ '@' :: s)) = some (b, s) := by
  cases a with
  | nil => cases hane rfl
  | cons c cs =>
    have hc := ha c (List.mem_cons_self _ _)
    have hcond : ¬ (c = ':' ∨ c = '@') := fun h => h.elim hc.1 hc.2
    simp only [List.cons_append, munch, stepA]
    rw [if_neg (by simpa using hcond)]
    exact munch_r1_pend b cs bb s (fun d hd => ha d (List.mem_cons_of_mem c hd)) hbbne hbb

theorem munch_r2_block (b2 : Bool) (a bb s : List Char)
    (ha : ∀ c ∈ a, c ≠ ':' ∧ c ≠ '@') (hbb : ∀ c ∈ bb, c ≠ '@') :
    munch (.r2 b2) (a ++ ':' :: (bb ++ '@' :: s)) = some (b2, s) := by
  have hshape : a ++ ':' :: (bb ++ '@' :: s) = (a ++ ':' :: bb) ++ '@' :: s := by simp
  rw [hshape]
  refine munch_r2_pend b2 (a ++ ':' :: bb) s ?_
  intro c hc
  rcases List.mem_append.mp hc with h1 | h1
  · exact (ha c h1).2
  · rcases List.mem_cons.mp h1 with rfl | h2
    · intro hcon; cases hcon
    · exact hbb c h2

theorem munch_r1z_masked (b : Bool) (t : List Char) :
    munch (.r1z b) (maskedL ++ t) = some (b, t) := rfl

theorem munch_r2_masked (b2 : Bool) (t : List Char) :
    munch (.r2 b2) (maskedL ++ t) = some (b2, t) := rfl

theorem simNone {s t : List Char} (hsim : Sim s t) :
    ∀ σ, (munch σ s = none ↔ munch σ t = none) := by
  induction hsim with
  | nil => intro σ; rfl
  | cons c hs ih =>
    intro σ
    simp only [munch]
    cases hst : stepA σ c with
    | inl τ => exact ih τ
    | inr b => simp
  | block b a bb hane ha hbbne hbb hs ih =>
    intro σ
    apply munch_append_iff (protoL b) σ
    rcases protoWalk b σ with hw | hw | ⟨b2, hw⟩ | ⟨b2, hw⟩ <;> rw [hw]
    · simp [munch_fl]
    · rw [munch_r1z_block b a bb _ hane ha hbbne hbb, munch_r1z_masked]
      simp
    · rw [munch_r2_block b2 a bb _ ha hbb, munch_r2_masked]
      simp
    · simp [munch_ac]

theorem munch_rest_lt : ∀ (l : List Char) (σ : MState) (b : Bool) (rest : List Char),
    munch σ l = some (b, rest) → rest.length < l.length := by
  intro l
  induction l with
  | nil => intro σ b rest h; cases h
  | cons c cs ih =>
    intro σ b rest h
    simp only [munch] at h
    cases hst : stepA σ c with
    | inl τ =>
      rw [hst] at h
      have := ih τ b rest h
      simp only [List.length_cons]
      omega
    | inr b2 =>
      rw [hst] at h
      injection h with h2
      injection h2 with _ hr
      rw [← hr]
      simp

theorem sanAux_nil : ∀ f, sanAux f [] = [] := by
  intro f; cases f <;> rfl

theorem sanAux_congr : ∀ n f1 f2 l, l.length ≤ n → l.length ≤ f1 → l.length ≤ f2 →
    sanAux f1 l = sanAux f2 l := by
  intro n
  induction n with
  | zero =>
    intro f1 f2 l hn _ _
    have hl : l = [] := List.eq_nil_of_length_eq_zero (Nat.le_zero.mp hn)
    subst hl
    rw [sanAux_nil, sanAux_nil]
  | succ n ih =>
    intro f1 f2 l hn h1 h2
    cases l with
    | nil => rw [sanAux_nil, sanAux_nil]
    | cons c cs =>
      cases f1 with
      | zero => simp at h1
      | succ f1 =>
        cases f2 with
        | zero => simp at h2
        | succ f2 =>
          simp only [sanAux]
          cases hm : munch .h0 (c :: cs) with
          | some p =>
            obtain ⟨b, rest⟩ := p
            simp only [hm]
            have hr := munch_rest_lt (c :: cs) .h0 b rest hm
            simp only [List.length_cons] at hn h1 h2 hr
            rw [ih f1 f2 rest (by omega) (by omega) (by omega)]
          | none =>
            simp only [hm]
            simp only [List.length_cons] at hn h1 h2
            rw [ih f1 f2 cs (by omega) (by omega) (by omega)]

theorem sanitizeMessage_cons (c : Char) (cs : List Char) : sanitizeMessage (c :: cs) =
    match munch .h0 (c :: cs) with
    | some (b, rest) => protoL b ++ maskedL ++ sanitizeMessage rest
    | none => c :: sanitizeMessage cs := by
  unfold sanitizeMessage
  simp only [List.length_cons, sanAux]
  cases hm : munch .h0 (c :: cs) with
  | some p =>
    obtain ⟨b, rest⟩ := p
    simp only [hm]
    have hr := munch_rest_lt (c :: cs) .h0 b rest hm
    simp only [List.length_cons] at hr
    rw [sanAux_congr cs.length cs.length rest.length rest (by omega) (by omega) (by omega)]
  | none => simp only [hm]

theorem sanitizeMessage_cons_some {c : Char} {cs : List Char} {b : Bool} {rest : List Char}
    (hm : munch .h0 (c :: cs) = some (b, rest)) :
    sanitizeMessage (c :: cs) = protoL b ++ (maskedL ++ sanitizeMessage rest) := by
  rw [sanitizeMessage_cons, hm]
  simp [List.append_assoc]

theorem sanitizeMessage_cons_none {c : Char} {cs : List Char}
    (hm : munch .h0 (c :: cs) = none) :
    sanitizeMessage (c :: cs) = c :: sanitizeMessage cs := by
  rw [sanitizeMessage_cons, hm]

theorem munch_r2_inv : ∀ (l : List Char) (hh b : Bool) (rest : List Char),
    munch (.r2 hh) l = some (b, rest) →
    b = hh ∧ ∃ bb, l = bb ++ '@' :: rest ∧ ∀ c ∈ bb, c ≠ '@' := by
  intro l
  induction l with
  | nil => intro hh b rest h; cases h
  | cons c cs ih =>
    intro hh b rest h
    by_cases hc : c = '@'
    · subst hc
      have hstep : munch (.r2 hh) ('@' :: cs) = some (hh, cs) := rfl
      rw [hstep] at h
      injection h with h2
      injection h2 with hb hr
      exact ⟨hb.symm, [], by simp [hr], by simp⟩
    · have hstep : munch (.r2 hh) (c :: cs) = munch (.r2 hh) cs := by
        simp only [munch, stepA, if_neg hc]
      rw [hstep] at h
      obtain ⟨hb, bb, hcs, hbb⟩ := ih hh b rest h
      refine ⟨hb, c :: bb, by simp [hcs], ?_⟩
      intro d hd
      rcases List.mem_cons.mp hd with rfl | hd2
      · exact hc
      · exact hbb d hd2

theorem munch_r2z_inv : ∀ (l : List Char) (hh b : Bool) (rest : List Char),
    munch (.r2z hh) l = some (b, rest) →
    b = hh ∧ ∃ bb, bb ≠ [] ∧ l = bb ++ '@' :: rest ∧ ∀ c ∈ bb, c ≠ '@' := by
  intro l hh b rest h
  cases l with
  | nil => cases h
  | cons c cs =>
    by_cases hc : c = '@'
    · subst hc
      have hstep : munch (.r2z hh) ('@' :: cs) = munch .fl cs := rfl
      rw [hstep, munch_fl] at h
      cases h
    · have hstep : munch (.r2z hh) (c :: cs) = munch (.r2 hh) cs := by
        simp only [munch, stepA, if_neg hc]
      rw [hstep] at h
      obtain ⟨hb, bb, hcs, hbb⟩ := munch_r2_inv cs hh b rest h
      refine ⟨hb, c :: bb, by simp, by simp [hcs], ?_⟩
      intro d hd
      rcases List.mem_cons.mp hd with rfl | hd2
      · exact hc
      · exact hbb d hd2

theorem munch_r1_inv : ∀ (l : List Char) (hh b : Bool) (rest : List Char),
    munch (.r1 hh) l = some (b, rest) →
    b = hh ∧ ∃ a bb, l = a ++ ':' :: (bb ++ '@' :: rest) ∧ (∀ c ∈ a, c ≠ ':' ∧ c ≠ '@') ∧
      bb ≠ [] ∧ ∀ c ∈ bb, c ≠ '@' := by
  intro l
  induction l with
  | nil => intro hh b rest h; cases h
  | cons c cs ih =>
    intro hh b rest h
    by_cases hc1 : c = ':'
    · subst hc1
      have hstep : munch (.r1 hh) (':' :: cs) = munch (.r2z hh) cs := rfl
      rw [hstep] at h
      obtain ⟨hb, bb, hbbne, hcs, hbb⟩ := munch_r2z_inv cs hh b rest h
      exact ⟨hb, [], bb, by simp [hcs], by simp, hbbne, hbb⟩
    · by_cases hc2 : c = '@'
      · subst hc2
        have hstep : munch (.r1 hh) ('@' :: cs) = munch .fl cs := rfl
        rw [hstep, munch_fl] at h
        cases h
      · have hstep : munch (.r1 hh) (c :: cs) = munch (.r1 hh) cs := by
          simp only [munch, stepA, if_neg hc1, if_neg hc2]
        rw [hstep] at h
        obtain ⟨hb, a, bb, hcs, ha, hbbne, hbb⟩ := ih hh b rest h
        refine ⟨hb, c :: a, bb, by simp [hcs], ?_, hbbne, hbb⟩
        intro d hd
        rcases List.mem_cons.mp hd with rfl | hd2
        · exact ⟨hc1, hc2⟩
        · exact ha d hd2

theorem munch_r1z_inv : ∀ (l : List Char) (hh b : Bool) (rest : List Char),
    munch (.r1z hh) l = some (b, rest) →
    b = hh ∧ ∃ a bb, a ≠ [] ∧ l = a ++ ':' :: (bb ++ '@' :: rest) ∧
      (∀ c ∈ a, c ≠ ':' ∧ c ≠ '@') ∧ bb ≠ [] ∧ ∀ c ∈ bb, c ≠ '@' := by
  intro l hh b rest h
  cases l with
  | nil => cases h
  | cons c cs =>
    by_cases hc1 : c = ':'
    · subst hc1
      have hstep : munch (.r1z hh) (':' :: cs) = munch .fl cs := rfl
      rw [hstep, munch_fl] at h
      cases h
    · by_cases hc2 : c = '@'
      · subst hc2
        have hstep : munch (.r1z hh) ('@' :: cs) = munch .fl cs := rfl
        rw [hstep, munch_fl] at h
        cases h
      · have hstep : munch (.r1z hh) (c :: cs) = munch (.r1 hh) cs := by
          simp only [munch, stepA]
          rw [if_neg (by simp [hc1, hc2])]
        rw [hstep] at h
        obtain ⟨hb, a, bb, hcs, ha, hbbne, hbb⟩ := munch_r1_inv cs hh b rest h
        refine ⟨hb, c :: a, bb, by simp, by simp [hcs], ?_, hbbne, hbb⟩
        intro d hd
        rcases List.mem_cons.mp hd with rfl | hd2
        · exact ⟨hc1, hc2⟩
        · exact ha d hd2

theorem munch_expect {σ τ : MState} {e : Char} (hτ : stepA σ e = .inl τ)
    (hfl : ∀ c, ¬ c = e → stepA σ c = .inl .fl) :
    ∀ (l : List Char) (b : Bool) (rest : List Char),
      munch σ l = some (b, rest) → ∃ l2, l = e :: l2 ∧ munch τ l2 = some (b, rest) := by
  intro l b rest h
  cases l with
  | nil => cases h
  | cons c cs =>
    by_cases hc : c = e
    · subst hc
      refine ⟨cs, rfl, ?_⟩
      simpa only [munch, hτ] using h
    · rw [show munch σ (c :: cs) = munch .fl cs by simp only [munch, hfl c hc],
        munch_fl] at h
      cases h

theorem munch_h4_inv : ∀ (l : List Char) (b : Bool) (rest : List Char),
    munch .h4 l = some (b, rest) →
    (∃ l2, l = 's' :: l2 ∧ munch .h4s l2 = some (b, rest)) ∨
    (∃ l2, l = ':' :: l2 ∧ munch (.sl1 false) l2 = some (b, rest)) := by
  intro l b rest h
  cases l with
  | nil => cases h
  | cons c cs =>
    by_cases hcs : c = 's'
    · subst hcs
      exact Or.inl ⟨cs, rfl, h⟩
    · by_cases hcc : c = ':'
      · subst hcc
        refine Or.inr ⟨cs, rfl, ?_⟩
        simpa only [munch, stepA, if_neg (by decide : ¬ (':' : Char) = 's'), if_pos rfl]
          using h
      · rw [show munch .h4 (c :: cs) = munch .fl cs by
          simp only [munch, stepA, if_neg hcs, if_neg hcc], munch_fl] at h
        cases h

theorem munch_h0_inv : ∀ (l : List Char) (b : Bool) (rest : List Char),
    munch .h0 l = some (b, rest) →
    ∃ a bb, l = protoL b ++ (a ++ ':' :: (bb ++ '@' :: rest)) ∧ a ≠ [] ∧
      (∀ c ∈ a, c ≠ ':' ∧ c ≠ '@') ∧ bb ≠ [] ∧ ∀ c ∈ bb, c ≠ '@' := by
  intro l b rest h
  obtain ⟨l1, rfl, h⟩ := munch_expect (σ := .h0) (τ := .h1) (e := 'h') rfl
    (fun c hc => by simp only [stepA, if_neg hc]) l b rest h
  obtain ⟨l2, rfl, h⟩ := munch_expect (σ := .h1) (τ := .h2) (e := 't') rfl
    (fun c hc => by simp only [stepA, if_neg hc]) l1 b rest h
  obtain ⟨l3, rfl, h⟩ := munch_expect (σ := .h2) (τ := .h3) (e := 't') rfl
    (fun c hc => by simp only [stepA, if_neg hc]) l2 b rest h
  obtain ⟨l4, rfl, h⟩ := munch_expect (σ := .h3) (τ := .h4) (e := 'p') rfl
    (fun c hc => by simp only [stepA, if_neg hc]) l3 b rest h
  rcases munch_h4_inv l4 b rest h with ⟨l5, rfl, h⟩ | ⟨l5, rfl, h⟩
  · obtain ⟨l6, rfl, h⟩ := munch_expect (σ := .h4s) (τ := .sl1 true) (e := ':') rfl
      (fun c hc => by simp only [stepA, if_neg hc]) l5 b rest h
    obtain ⟨l7, rfl, h⟩ := munch_expect (σ := .sl1 true) (τ := .sl2 true) (e := '/') rfl
      (fun c hc => by simp only [stepA, if_neg hc]) l6 b rest h
    obtain ⟨l8, rfl, h⟩ := munch_expect (σ := .sl2 true) (τ := .r1z true) (e := '/') rfl
      (fun c hc => by simp only [stepA, if_neg hc]) l7 b rest h
    obtain ⟨hb, a, bb, hane, hdec, ha, hbbne, hbb⟩ := munch_r1z_inv l8 true b rest h
    subst hb
    exact ⟨a, bb, by rw [hdec]; rfl, hane, ha, hbbne, hbb⟩
  · obtain ⟨l6, rfl, h⟩ := munch_expect (σ := .sl1 false) (τ := .sl2 false) (e := '/') rfl
      (fun c hc => by simp only [stepA, if_neg hc]) l5 b rest h
    obtain ⟨l7, rfl, h⟩ := munch_expect (σ := .sl2 false) (τ := .r1z false) (e := '/') rfl
      (fun c hc => by simp only [stepA, if_neg hc]) l6 b rest h
    obtain ⟨hb, a, bb, hane, hdec, ha, hbbne, hbb⟩ := munch_r1z_inv l7 false b rest h
    subst hb
    exact ⟨a, bb, by rw [hdec]; rfl, hane, ha, hbbne, hbb⟩

theorem sim_sanitize : ∀ (n : Nat) (s : List Char), s.length ≤ n →
    Sim s (sanitizeMessage s) := by
  intro n
  induction n with
  | zero =>
    intro s hn
    have hs : s = [] := List.eq_nil_of_length_eq_zero (Nat.le_zero.mp hn)
    subst hs
    exact Sim.nil
  | succ n ih =>
    intro s hn
    cases s with
    | nil => exact Sim.nil
    | cons c cs =>
      simp only [List.length_cons] at hn
      cases hm : munch .h0 (c :: cs) with
      | none =>
        rw [sanitizeMessage_cons_none hm]
        exact Sim.cons c (ih cs (by omega))
      | some p =>
        obtain ⟨b, rest⟩ := p
        rw [sanitizeMessage_cons_some hm]
        obtain ⟨a, bb, hl, hane, ha, hbbne, hbb⟩ := munch_h0_inv _ _ _ hm
        rw [hl]
        have hr := munch_rest_lt (c :: cs) .h0 b rest hm
        simp only [List.length_cons] at hr
        exact Sim.block b a bb hane ha hbbne hbb (ih rest (by omega))

theorem munch_h0_block (b : Bool) (w : List Char) :
    munch .h0 (protoL b ++ (maskedL ++ w)) = some (b, w) := by
  cases b <;> rfl

theorem sanitizeMessage_block : ∀ (b : Bool) (w : List Char),
    sanitizeMessage (protoL b ++ (maskedL ++ w)) =
      protoL b ++ (maskedL ++ sanitizeMessage w) := by
  intro b w
  have hm := munch_h0_block b w
  cases b
  · have hform : protoL false ++ (maskedL ++ w) =
        'h' :: ('t' :: 't' :: 'p' :: ':' :: '/' :: '/' ::
          ('*' :: '*' :: '*' :: ':' :: '*' :: '*' :: '*' :: '@' :: w)) := rfl
    rw [hform] at hm ⊢
    rw [sanitizeMessage_cons_some hm]
  · have hform : protoL true ++ (maskedL ++ w) =
        'h' :: ('t' :: 't' :: 'p' :: 's' :: ':' :: '/' :: '/' ::
          ('*' :: '*' :: '*' :: ':' :: '*' :: '*' :: '*' :: '@' :: w)) := rfl
    rw [hform] at hm ⊢
    rw [sanitizeMessage_cons_some hm]

theorem sanitize_idem_aux : ∀ (n : Nat) (s : List Char), s.length ≤ n →
    sanitizeMessage (sanitizeMessage s) = sanitizeMessage s := by
  intro n
  induction n with
  | zero =>
    intro s hn
    have hs : s = [] := List.eq_nil_of_length_eq_zero (Nat.le_zero.mp hn)
    subst hs
    rfl
  | succ n ih =>
    intro s hn
    cases s with
    | nil => rfl
    | cons c cs =>
      simp only [List.length_cons] at hn
      cases hm : munch .h0 (c :: cs) with
      | some p =>
        obtain ⟨b, rest⟩ := p
        have hr := munch_rest_lt (c :: cs) .h0 b rest hm
        simp only [List.length_cons] at hr
        rw [sanitizeMessage_cons_some hm, sanitizeMessage_block, ih rest (by omega)]
      | none =>
        rw [sanitizeMessage_cons_none hm]
        have hnone : munch .h0 (c :: sanitizeMessage cs) = none := by
          have hsim : Sim (c :: cs) (c :: sanitizeMessage cs) :=
            Sim.cons c (sim_sanitize cs.length cs (Nat.le_refl _))
          exact (simNone hsim .h0).mp hm
        rw [sanitizeMessage_cons_none hnone, ih cs (by omega)]

/-- C8: `sanitizeMessage` is idempotent — applying the credential mask
twice yields the same string as applying it once (each replaced block
`proto***:***@` is itself a match that re-masks to itself, and masking
never creates a match where none existed). -/
theorem sanitizeMessage_idempotent (s : List Char) :
    sanitizeMessage (sanitizeMessage s) = sanitizeMessage s :=
  sanitize_idem_aux s.length s (Nat.le_refl _)

end FetchJira
